import Mathlib

/-!
Shallow embedding of `seekfast.py`, a command-line tool that extracts text
from document files (.doc / .docx / .pdf) and searches the extracted lines
for user-supplied terms, aggregating the per-file results into one sorted
list.

External Python libraries (`docx2txt`, `olefile`, `PyPDF2`, the `re` engine
for user-written regular expressions) are modelled as parameters collected
in an `ExternalWorld` structure: each may either return a value or fail
(`Except`), mirroring a Python call that may raise.  Pure computations of
the source (the byte-pair decoder for `.doc` files, line splitting,
literal/whole-word matching, context assembly, sorting) are embedded as
executable Lean functions.

Conventions for Python built-ins used by the source:
* `str.splitlines` is embedded by `pySplitlines` (recognising the line
  boundary characters Python uses, with no retained trailing empty line);
* `str.strip()` is embedded by `pyStrip` (dropping leading and trailing
  whitespace characters);
* `chr(b).isprintable()` / `chr(b).isspace()` for a byte `b < 256` are
  embedded by `pyIsPrintableByte` / `pyIsSpaceByte`, tabulating Python's
  answers on the Latin-1 range;
* `re.compile(re.escape(term), flags).search(line)` is a case-folded
  substring test, embedded by `substrSearch`;
* `re.compile(r'\b' + re.escape(term) + r'\b', flags).search(line)` is a
  case-folded substring test whose occurrence is bounded on both sides by
  word-boundary positions, embedded by `wholeWordSearch`;
* a user-supplied regular expression (`regex` mode) is opaque: compilation
  is `ExternalWorld.re_compile`, returning `none` exactly when `re.compile`
  would raise `re.error`, and a compiled pattern is an arbitrary boolean
  line test.
-/

/-- Python `chr(b).isspace()` for a byte value `b < 256`. -/
def pyIsSpaceByte (b : Nat) : Bool :=
  (decide (9 ≤ b) && decide (b ≤ 13)) || (decide (28 ≤ b) && decide (b ≤ 31)) ||
    b == 32 || b == 133 || b == 160

/-- Python `chr(b).isprintable()` for a byte value `b < 256`: the printable
ASCII range, and the Latin-1 upper range except the soft hyphen `0xAD`. -/
def pyIsPrintableByte (b : Nat) : Bool :=
  (decide (32 ≤ b) && decide (b ≤ 126)) ||
    (decide (161 ≤ b) && decide (b ≤ 255) && b != 173)

/-- The keep test of the `.doc` decoder loop:
`char.isprintable() or char.isspace()` for `char = chr(b)`. -/
def keepByte (b : Nat) : Bool :=
  pyIsPrintableByte b || pyIsSpaceByte b

/-- The decoder loop of `extract_text_from_doc`
(`for i in range(0, len(content), 2): ...`), started at index `i`.
For each index `i` with `i + 1 < len(content)` and `content[i+1] == 0`,
the character `chr(content[i])` is appended when `keepByte` holds. -/
def extractDocChars (content : List Nat) (i : Nat) : List Char :=
  if _h : i < content.length then
    (if i + 1 < content.length && content.getD (i + 1) 0 == 0 &&
        keepByte (content.getD i 0)
     then [Char.ofNat (content.getD i 0)] else []) ++ extractDocChars content (i + 2)
  else []
termination_by content.length - i
decreasing_by simp_wf; omega

/-- The byte-pair heuristic decoder applied to the bytes of the
`WordDocument` stream by `extract_text_from_doc`. -/
def decode_doc_bytes (content : List Nat) : List Char :=
  extractDocChars content 0

/-- Modelled from the claim's words: the consecutive 2-byte pairs of a byte
string (a dangling final byte belongs to no pair). -/
def bytePairs : List Nat → List (Nat × Nat)
  | b0 :: b1 :: rest => (b0, b1) :: bytePairs rest
  | _ => []

/-- Modelled from the claim's words: scan consecutive 2-byte pairs and, for
each pair whose high byte is zero, keep the low byte as a character if and
only if that character is printable or whitespace; every other pair
contributes nothing. -/
def decodePairsSpec (content : List Nat) : List Char :=
  (bytePairs content).filterMap fun p =>
    if p.2 == 0 && keepByte p.1 then some (Char.ofNat p.1) else none

/-- Line-boundary characters of Python `str.splitlines`. -/
def isLineBreak (c : Char) : Bool :=
  c == '\n' || c == '\r' || c.toNat == 11 || c.toNat == 12 || c.toNat == 28 ||
    c.toNat == 29 || c.toNat == 30 || c.toNat == 133 || c.toNat == 8232 ||
    c.toNat == 8233

/-- Worker for `pySplitlines`: `acc` holds the current line reversed. -/
def splitlinesAux : List Char → List Char → List String
  | [], acc => if acc.isEmpty then [] else [String.mk acc.reverse]
  | '\r' :: '\n' :: rest, acc => String.mk acc.reverse :: splitlinesAux rest []
  | c :: rest, acc =>
    if isLineBreak c then String.mk acc.reverse :: splitlinesAux rest []
    else splitlinesAux rest (c :: acc)

/-- Python `text.splitlines()`: split at line boundaries (treating `\r\n` as
one boundary), retaining no trailing empty line. -/
def pySplitlines (s : String) : List String :=
  splitlinesAux s.data []

/-- Python `str.isspace()` on one character (byte range). -/
def pyIsSpaceChar (c : Char) : Bool :=
  pyIsSpaceByte c.toNat

/-- Python `s.strip()`: drop leading and trailing whitespace. -/
def pyStrip (s : String) : String :=
  String.mk (((s.data.dropWhile pyIsSpaceChar).reverse.dropWhile pyIsSpaceChar).reverse)

/-- Python `s.lower()` (character-wise lower-casing). -/
def pyToLower (s : String) : String :=
  String.mk (s.data.map Char.toLower)

/-- Python `s.endswith(suffix)`: the last `len(suffix)` characters of `s`
are exactly `suffix` (false when `s` is shorter than `suffix`). -/
def pyEndsWith (s suffix : String) : Bool :=
  s.data.drop (s.data.length - suffix.data.length) == suffix.data &&
    decide (suffix.data.length ≤ s.data.length)

/-- Lexicographic code-point comparison of character lists (Python string
`<`). -/
def strLtList : List Char → List Char → Bool
  | [], [] => false
  | [], _ :: _ => true
  | _ :: _, [] => false
  | c :: cs, d :: ds =>
    if c.toNat < d.toNat then true
    else if d.toNat < c.toNat then false
    else strLtList cs ds

/-- Python string `<`: lexicographic by code point. -/
def pyStrLt (a b : String) : Bool :=
  strLtList a.data b.data

/-- Python regex word characters (ASCII): letters, digits, underscore. -/
def isWordChar (c : Char) : Bool :=
  c.isAlphanum || c == '_'

/-- Case folding applied by `re.IGNORECASE`: identity when the search is
case sensitive, lower-casing otherwise. -/
def foldChar (case_sensitive : Bool) (c : Char) : Char :=
  if case_sensitive then c else c.toLower

/-- The escaped literal `term` matches `line` starting at position `i`
(under the active case folding). -/
def litMatchAt (case_sensitive : Bool) (term line : List Char) (i : Nat) : Bool :=
  ((line.drop i).take term.length).map (foldChar case_sensitive) ==
    term.map (foldChar case_sensitive)

/-- Semantics of `re.compile(re.escape(term), flags).search(line)`:
the term occurs somewhere in the line as a (case-folded) substring. -/
def substrSearch (case_sensitive : Bool) (term line : String) : Bool :=
  (List.range (line.data.length + 1)).any (litMatchAt case_sensitive term.data line.data)

/-- Whether position `i` of `line` holds a word character
(out-of-range positions count as non-word). -/
def wordAt (line : List Char) (i : Nat) : Bool :=
  match line.get? i with
  | some c => isWordChar c
  | none => false

/-- Semantics of the regex word-boundary assertion `\b` at position `i`:
the word-ness of the characters on the two sides of the position differs. -/
def boundaryAt (line : List Char) (i : Nat) : Bool :=
  match i with
  | 0 => wordAt line 0
  | j + 1 => wordAt line j != wordAt line (j + 1)

/-- Semantics of `re.compile(r'\b' + re.escape(term) + r'\b', flags)
.search(line)`: the term occurs as a (case-folded) substring at a position
bounded by word-boundary assertions on both sides. -/
def wholeWordSearch (case_sensitive : Bool) (term line : String) : Bool :=
  (List.range (line.data.length + 1)).any fun i =>
    boundaryAt line.data i && litMatchAt case_sensitive term.data line.data i &&
      boundaryAt line.data (i + term.data.length)

/-- The external Python libraries called by the source, as opaque
parameters.  A `.error` value models the library call raising. -/
structure ExternalWorld where
  /-- Result of `docx2txt.process(path)`. -/
  docx2txt_process : String → Except Unit String
  /-- Result of the `olefile` interaction on a path: whether
  `olefile.isOleFile` holds, and when it does, the bytes of the
  `WordDocument` stream when that stream exists. -/
  olefile_read : String → Except Unit (Bool × Option (List Nat))
  /-- Result of `PyPDF2.PdfReader(path)`: the extracted text of each page in
  order. -/
  pypdf_pages : String → Except Unit (List String)
  /-- Result of `re.compile(term, 0 if case_sensitive else re.IGNORECASE)`
  for a user-written regex term: `none` when `re.compile` raises `re.error`,
  otherwise the compiled pattern as a boolean line test (the semantics of
  `pattern.search(line)`). -/
  re_compile : String → Bool → Option (String → Bool)

/-- Embedding of `extract_text_from_docx`: any raise is caught and converted
to the empty string. -/
def extract_text_from_docx (env : ExternalWorld) (docx_path : String) : String :=
  match env.docx2txt_process docx_path with
  | .ok t => t
  | .error _ => ""

/-- Embedding of `extract_text_from_doc`: a non-OLE file, a missing
`WordDocument` stream, or any raise yields the empty string; otherwise the
stream bytes are decoded by the byte-pair heuristic. -/
def extract_text_from_doc (env : ExternalWorld) (doc_path : String) : String :=
  match env.olefile_read doc_path with
  | .error _ => ""
  | .ok (isOle, wordStream) =>
    if isOle then
      match wordStream with
      | some content => String.mk (decode_doc_bytes content)
      | none => ""
    else ""

/-- Embedding of `extract_text_from_pdf`: page texts are concatenated, each
followed by a newline; any raise yields the empty string. -/
def extract_text_from_pdf (env : ExternalWorld) (pdf_path : String) : String :=
  match env.pypdf_pages pdf_path with
  | .ok pages => pages.foldl (fun acc t => acc ++ t ++ "\n") ""
  | .error _ => ""

/-- Embedding of `extract_text`: dispatch on the lower-cased file name
suffix; unsupported suffixes yield the empty string with no extraction
attempt. -/
def extract_text (env : ExternalWorld) (file_path : String) : String :=
  let file_path_lower := pyToLower file_path
  if pyEndsWith file_path_lower ".docx" then extract_text_from_docx env file_path
  else if pyEndsWith file_path_lower ".doc" then extract_text_from_doc env file_path
  else if pyEndsWith file_path_lower ".pdf" then extract_text_from_pdf env file_path
  else ""

/-- A search hit, as built by `search_file` (the dictionary appended to
`results`). -/
structure MatchRecord where
  file : String
  line_number : Nat
  term : String
  context : String
deriving DecidableEq, Repr

/-- Pattern construction of `search_file` for one term: in regex mode the
term is compiled by the external engine (which may fail); otherwise the
escaped literal is compiled, with word boundaries when `whole_word`.
Compilation of an escaped literal never fails. -/
def compilePattern (env : ExternalWorld) (term : String)
    (case_sensitive whole_word regex : Bool) : Option (String → Bool) :=
  if regex then env.re_compile term case_sensitive
  else if whole_word then some (wholeWordSearch case_sensitive term)
  else some (substrSearch case_sensitive term)

/-- Context assembly of `search_file` for a hit on 0-based line `i`:
`lines[max(0, i-1) : min(len(lines), i+2)]` joined with newlines, the
joined string then stripped.  Truncated subtraction makes `i - 1` equal
`max 0 (i - 1)`. -/
def contextOf (lines : List String) (i : Nat) : String :=
  let start := i - 1
  let stop := min lines.length (i + 2)
  pyStrip (String.intercalate "\n" ((lines.drop start).take (stop - start)))

/-- The per-term loop body of `search_file`: compile the term's pattern (a
failed regex compilation skips the term with no records) and scan every
line in order, emitting one record per matching line. -/
def scanTerm (env : ExternalWorld) (file_path : String) (lines : List String)
    (case_sensitive whole_word regex : Bool) (term : String) : List MatchRecord :=
  match compilePattern env term case_sensitive whole_word regex with
  | none => []
  | some pattern =>
    lines.enum.filterMap fun p =>
      if pattern p.2 then
        some { file := file_path, line_number := p.1 + 1, term := term,
               context := contextOf lines p.1 }
      else none

/-- Embedding of the rest of `search_file`: extract the text (empty text
yields no records) and run `scanTerm` for every term in the given order. -/
def search_file (env : ExternalWorld) (file_path : String)
    (search_terms : List String)
    (case_sensitive whole_word regex : Bool) : List MatchRecord :=
  let text := extract_text env file_path
  if text = "" then []
  else
    search_terms.flatMap
      (scanTerm env file_path (pySplitlines text) case_sensitive whole_word regex)

/-- The sort key comparison of `main`
(`all_results.sort(key=lambda x: (x['file'], x['line_number']))`): the
tuple `(file, line_number)` compared lexicographically. -/
def recordLE (a b : MatchRecord) : Bool :=
  pyStrLt a.file b.file ||
    (a.file == b.file && decide (a.line_number ≤ b.line_number))

/-- Two records the sort key comparison cannot distinguish. -/
def recordEquiv (a b : MatchRecord) : Bool :=
  recordLE a b && recordLE b a

/-- The stable sort of `main` (Python `list.sort` is stable). -/
def sortResults (rs : List MatchRecord) : List MatchRecord :=
  rs.mergeSort recordLE

/-- Embedding of the aggregation of `main`: the per-file record lists are
collected in worker completion order (`completion_order`, some permutation
of the file list) and their concatenation is stably sorted. -/
def runSearch (env : ExternalWorld) (completion_order : List String)
    (search_terms : List String)
    (case_sensitive whole_word regex : Bool) : List MatchRecord :=
  sortResults (completion_order.flatMap fun f =>
    search_file env f search_terms case_sensitive whole_word regex)

/-- Modelled from the claim's words (claim C1): the context lines with each
inner line stripped of surrounding whitespace, the lines joined with
newlines, and the result trimmed. -/
def claimedContextC1 (lines : List String) (i : Nat) : String :=
  let start := i - 1
  let stop := min lines.length (i + 2)
  pyStrip (String.intercalate "\n"
    (((lines.drop start).take (stop - start)).map pyStrip))

/-- The ordering C2 claims of the aggregated output: file paths
lexicographically, then line numbers, and for full ties the positions of
the records' terms in the submitted term list. -/
def c2Order (search_terms : List String) (a b : MatchRecord) : Prop :=
  pyStrLt a.file b.file = true ∨
    (a.file = b.file ∧ (a.line_number < b.line_number ∨
      (a.line_number = b.line_number ∧
        List.indexOf a.term search_terms ≤ List.indexOf b.term search_terms)))

instance (search_terms : List String) (a b : MatchRecord) :
    Decidable (c2Order search_terms a b) := by
  unfold c2Order
  infer_instance

/-- The identifying triple of a record (claim C8). -/
def tripleOf (r : MatchRecord) : String × String × Nat :=
  (r.file, r.term, r.line_number)

/-- A concrete world whose `.docx` extractor returns a three-line text with
surrounding whitespace on the outer lines. -/
def worldSpaced : ExternalWorld where
  docx2txt_process := fun _ => .ok "  a  \nx\n  b  "
  olefile_read := fun _ => .error ()
  pypdf_pages := fun _ => .error ()
  re_compile := fun _ _ => none

/-- A concrete world whose `.docx` extractor returns one line reading
`concatenate cats`. -/
def worldCats : ExternalWorld where
  docx2txt_process := fun _ => .ok "concatenate cats"
  olefile_read := fun _ => .error ()
  pypdf_pages := fun _ => .error ()
  re_compile := fun _ _ => none

/-- A concrete world whose regex engine rejects the pattern `[` and accepts
every other term as a substring test. -/
def worldRegex : ExternalWorld where
  docx2txt_process := fun _ => .ok "x marks the spot"
  olefile_read := fun _ => .error ()
  pypdf_pages := fun _ => .error ()
  re_compile := fun t cs => if t == "[" then none else some (substrSearch cs t)

/-- A concrete world in which every external library call raises. -/
def worldFailing : ExternalWorld where
  docx2txt_process := fun _ => .error ()
  olefile_read := fun _ => .error ()
  pypdf_pages := fun _ => .error ()
  re_compile := fun _ _ => none

/-- A concrete world in which every `.doc` path is not a valid compound
binary (OLE) container. -/
def worldNotOle : ExternalWorld where
  docx2txt_process := fun _ => .error ()
  olefile_read := fun _ => .ok (false, none)
  pypdf_pages := fun _ => .error ()
  re_compile := fun _ _ => none

/-- C9: when regex mode is active the whole-word flag is never consulted:
`search_file` with `regex = true` produces the same records for
`whole_word = true` and `whole_word = false` (indeed for any two values of
the flag), for every world, path, term list and case-sensitivity setting. -/
theorem C9_regex_ignores_whole_word (env : ExternalWorld) (file_path : String)
    (search_terms : List String) (case_sensitive whole_word whole_word' : Bool) :
    search_file env file_path search_terms case_sensitive whole_word true =
      search_file env file_path search_terms case_sensitive whole_word' true := rfl

/-- C7: with `regex = false` and `whole_word = true` the compiled pattern is
the word-boundary-bounded escaped literal; searching `cat` against the line
`concatenate cats` yields no record with whole-word on and exactly one
record (for that single line) with whole-word off. -/
theorem C7_whole_word :
    (∀ (env : ExternalWorld) (term : String) (case_sensitive : Bool),
      compilePattern env term case_sensitive true false =
        some (wholeWordSearch case_sensitive term)) ∧
    search_file worldCats "f.docx" ["cat"] false true false = [] ∧
    (search_file worldCats "f.docx" ["cat"] false false false).map
        (fun r => r.line_number) = [1] := by
  refine ⟨fun _ _ _ => rfl, by decide, by decide⟩

/-- C4: `extract_text` is a total function converting every internal
extraction failure to the empty string: an unsupported suffix yields `""`
with no extraction attempt, and for each supported suffix a raising library
call — or, for `.doc`, a file that is not a valid OLE container — yields
`""`. -/
theorem C4_extract_text_total (env : ExternalWorld) (p : String) :
    (pyEndsWith (pyToLower p) ".docx" = false → pyEndsWith (pyToLower p) ".doc" = false →
      pyEndsWith (pyToLower p) ".pdf" = false → extract_text env p = "") ∧
    (pyEndsWith (pyToLower p) ".docx" = true → env.docx2txt_process p = .error () →
      extract_text env p = "") ∧
    (pyEndsWith (pyToLower p) ".docx" = false → pyEndsWith (pyToLower p) ".doc" = true →
      env.olefile_read p = .error () → extract_text env p = "") ∧
    (∀ ws, pyEndsWith (pyToLower p) ".docx" = false → pyEndsWith (pyToLower p) ".doc" = true →
      env.olefile_read p = .ok (false, ws) → extract_text env p = "") ∧
    (pyEndsWith (pyToLower p) ".docx" = false → pyEndsWith (pyToLower p) ".doc" = false →
      pyEndsWith (pyToLower p) ".pdf" = true → env.pypdf_pages p = .error () →
      extract_text env p = "") := by
  refine ⟨?_, ?_, ?_, ?_, ?_⟩
  · intro h1 h2 h3
    simp [extract_text, h1, h2, h3]
  · intro h1 h2
    simp [extract_text, h1, extract_text_from_docx, h2]
  · intro h1 h2 h3
    simp [extract_text, h1, h2, extract_text_from_doc, h3]
  · intro ws h1 h2 h3
    simp [extract_text, h1, h2, extract_text_from_doc, h3]
  · intro h1 h2 h3 h4
    simp [extract_text, h1, h2, h3, extract_text_from_pdf, h4]

/-- Closed instantiation of `C4_extract_text_total` discharging each
hypothesis at a concrete world and path. -/
theorem C4_extract_text_total_witness :
    extract_text worldFailing "a.txt" = "" ∧
    extract_text worldFailing "a.docx" = "" ∧
    extract_text worldFailing "a.doc" = "" ∧
    extract_text worldNotOle "a.doc" = "" ∧
    extract_text worldFailing "a.pdf" = "" := by
  refine ⟨(C4_extract_text_total worldFailing "a.txt").1 (by decide) (by decide) (by decide),
    (C4_extract_text_total worldFailing "a.docx").2.1 (by decide) rfl,
    (C4_extract_text_total worldFailing "a.doc").2.2.1 (by decide) (by decide) rfl,
    (C4_extract_text_total worldNotOle "a.doc").2.2.2.1 none (by decide) (by decide) rfl,
    (C4_extract_text_total worldFailing "a.pdf").2.2.2.2 (by decide) (by decide) (by decide) rfl⟩

/-- C6: pattern compilation fails only in regex mode with a term the engine
rejects; with `regex = false` compilation always succeeds; a term whose
compilation fails is skipped and the remaining terms produce exactly the
records they would produce without it. -/
theorem C6_pattern_compilation :
    (∀ (env : ExternalWorld) (term : String) (cs ww : Bool),
      (compilePattern env term cs ww false).isSome = true) ∧
    (∀ (env : ExternalWorld) (term : String) (cs ww rx : Bool),
      compilePattern env term cs ww rx = none →
        rx = true ∧ env.re_compile term cs = none) ∧
    (∀ (env : ExternalWorld) (f : String) (ts1 ts2 : List String) (bad : String)
      (cs ww rx : Bool), compilePattern env bad cs ww rx = none →
        search_file env f (ts1 ++ bad :: ts2) cs ww rx =
          search_file env f (ts1 ++ ts2) cs ww rx) := by
  refine ⟨?_, ?_, ?_⟩
  · intro env term cs ww
    cases ww <;> simp [compilePattern]
  · intro env term cs ww rx h
    cases rx with
    | false => cases ww <;> simp [compilePattern] at h
    | true => exact ⟨rfl, by simpa [compilePattern] using h⟩
  · intro env f ts1 ts2 bad cs ww rx h
    simp only [search_file]
    split
    · rfl
    · simp [List.flatMap_append, List.flatMap_cons, scanTerm, h]

/-- Closed instantiation of `C6_pattern_compilation`: in `worldRegex` the
regex term `[` fails to compile and is skipped, the valid term `x` still
matching (the search over the term list with the invalid term in front
equals the search over the list without it, and that search is non-empty). -/
theorem C6_pattern_compilation_witness :
    search_file worldRegex "f.docx" ["[", "x"] false false true =
      search_file worldRegex "f.docx" ["x"] false false true ∧
    (search_file worldRegex "f.docx" ["x"] false false true).length = 1 := by
  constructor
  · exact C6_pattern_compilation.2.2 worldRegex "f.docx" [] ["x"] "[" false false true rfl
  · decide

/-- Advancing the decoder loop by one byte pair at the front of the byte
list shifts the start index by two. -/
theorem extractDocChars_shift (b0 b1 : Nat) (rest : List Nat) :
    ∀ i, extractDocChars (b0 :: b1 :: rest) (i + 2) = extractDocChars rest i := by
  apply extractDocChars.induct rest
    (fun i => extractDocChars (b0 :: b1 :: rest) (i + 2) = extractDocChars rest i)
  · intro x hx ih
    conv_lhs => rw [extractDocChars]
    conv_rhs => rw [extractDocChars]
    rw [dif_pos (by simp only [List.length_cons]; omega), dif_pos hx]
    have egetD1 : (b0 :: b1 :: rest).getD (x + 2) 0 = rest.getD x 0 := rfl
    have egetD2 : (b0 :: b1 :: rest).getD (x + 2 + 1) 0 = rest.getD (x + 1) 0 := rfl
    have econd : decide (x + 2 + 1 < (b0 :: b1 :: rest).length) =
        decide (x + 1 < rest.length) := by
      apply decide_eq_decide.mpr
      simp only [List.length_cons]
      omega
    rw [egetD1, egetD2, econd, ih]
  · intro x hx
    conv_lhs => rw [extractDocChars]
    conv_rhs => rw [extractDocChars]
    rw [dif_neg (by simp only [List.length_cons]; omega), dif_neg hx]

/-- The decoder loop computes the byte-pair scan of the claim. -/
theorem decode_doc_bytes_eq_spec : ∀ content,
    decode_doc_bytes content = decodePairsSpec content
  | [] => by
    rw [decode_doc_bytes, extractDocChars]
    simp [decodePairsSpec, bytePairs]
  | [b] => by
    rw [decode_doc_bytes, extractDocChars]
    rw [dif_pos (by simp)]
    rw [extractDocChars]
    simp [decodePairsSpec, bytePairs]
  | b0 :: b1 :: rest => by
    have ih := decode_doc_bytes_eq_spec rest
    rw [decode_doc_bytes] at ih ⊢
    rw [extractDocChars]
    rw [dif_pos (by simp)]
    rw [extractDocChars_shift b0 b1 rest 0, ih]
    have egetD1 : (b0 :: b1 :: rest).getD 0 0 = b0 := rfl
    have egetD2 : (b0 :: b1 :: rest).getD (0 + 1) 0 = b1 := rfl
    have econd : decide (0 + 1 < (b0 :: b1 :: rest).length) = true := by
      simp
    rw [egetD1, egetD2, econd]
    simp only [decodePairsSpec, bytePairs, List.filterMap_cons, Bool.true_and]
    split
    · simp_all
    · simp_all

/-- C5: the heuristic decoder applied to the bytes of a legacy binary
file's main text stream produces exactly the characters of the claimed
pair scan: consecutive 2-byte pairs, keeping `chr(low)` for a pair with a
zero high byte when that character is printable or whitespace, and
dropping every other pair (a dangling odd final byte is ignored). -/
theorem C5_doc_decoder_pairs (content : List Nat) :
    decode_doc_bytes content = decodePairsSpec content :=
  decode_doc_bytes_eq_spec content

/-- On an empty line list a term scan yields no records. -/
theorem scanTerm_nil (env : ExternalWorld) (f : String) (cs ww rx : Bool)
    (t : String) : scanTerm env f [] cs ww rx t = [] := by
  unfold scanTerm
  cases compilePattern env t cs ww rx <;> rfl

/-- Characterisation of the records a term scan emits. -/
theorem mem_scanTerm {env : ExternalWorld} {f : String} {lines : List String}
    {cs ww rx : Bool} {t : String} {r : MatchRecord}
    (h : r ∈ scanTerm env f lines cs ww rx t) :
    ∃ pat, compilePattern env t cs ww rx = some pat ∧
      ∃ i, i < lines.length ∧ pat (lines.getD i "") = true ∧
        r = { file := f, line_number := i + 1, term := t,
              context := contextOf lines i } := by
  unfold scanTerm at h
  cases hc : compilePattern env t cs ww rx with
  | none => rw [hc] at h; exact absurd h (List.not_mem_nil r)
  | some pat =>
    rw [hc] at h
    refine ⟨pat, rfl, ?_⟩
    rw [List.mem_filterMap] at h
    obtain ⟨p, hp, he⟩ := h
    have hlt : p.1 < lines.length := List.fst_lt_of_mem_enum hp
    have hsnd : p.2 = lines[p.1] := List.snd_eq_of_mem_enum hp
    refine ⟨p.1, hlt, ?_, ?_⟩
    · by_cases hpat : pat p.2 = true
      · rw [List.getD_eq_getElem lines "" hlt, ← hsnd]
        exact hpat
      · rw [if_neg hpat] at he
        exact absurd he (Option.noConfusion)
    · by_cases hpat : pat p.2 = true
      · rw [if_pos hpat] at he
        exact (Option.some.injEq _ _ ▸ he).symm
      · rw [if_neg hpat] at he
        exact absurd he (Option.noConfusion)

/-- Converse construction: a compiled pattern matching line `i` puts the
corresponding record in the term scan. -/
theorem scanTerm_mem {env : ExternalWorld} {f : String} {lines : List String}
    {cs ww rx : Bool} {t : String} {pat : String → Bool}
    (hc : compilePattern env t cs ww rx = some pat)
    {i : Nat} (hi : i < lines.length) (hpat : pat (lines.getD i "") = true) :
    ({ file := f, line_number := i + 1, term := t,
       context := contextOf lines i } : MatchRecord) ∈
      scanTerm env f lines cs ww rx t := by
  unfold scanTerm
  rw [hc, List.mem_filterMap]
  refine ⟨(i, lines.getD i ""), ?_, ?_⟩
  · rw [List.mem_enum_iff_getElem?]
    simp [List.getElem?_eq_getElem hi, List.getD_eq_getElem lines "" hi]
  · rw [if_pos hpat]

/-- Membership in `search_file` is membership in some term's scan of the
split extracted text (when the text is empty there are no lines and no
records, so no emptiness hypothesis is needed). -/
theorem mem_search_file_iff (env : ExternalWorld) (f : String)
    (terms : List String) (cs ww rx : Bool) (r : MatchRecord) :
    r ∈ search_file env f terms cs ww rx ↔
      ∃ t ∈ terms,
        r ∈ scanTerm env f (pySplitlines (extract_text env f)) cs ww rx t := by
  simp only [search_file]
  split
  · rename_i hempty
    simp only [List.not_mem_nil, false_iff]
    rintro ⟨t, _, hr⟩
    rw [hempty] at hr
    rw [show pySplitlines "" = [] from rfl, scanTerm_nil] at hr
    exact absurd hr (List.not_mem_nil r)
  · exact List.mem_flatMap

/-- C10: every record `search_file` returns is sound: its file is the input
path, its term is one of the submitted terms, its 1-based line number is
within the line count of the split extracted text, and the line at that
position matches the record's compiled pattern. -/
theorem C10_record_soundness (env : ExternalWorld) (f : String)
    (terms : List String) (cs ww rx : Bool) (r : MatchRecord)
    (h : r ∈ search_file env f terms cs ww rx) :
    r.file = f ∧ r.term ∈ terms ∧ 1 ≤ r.line_number ∧
      r.line_number ≤ (pySplitlines (extract_text env f)).length ∧
      ∃ pat, compilePattern env r.term cs ww rx = some pat ∧
        pat ((pySplitlines (extract_text env f)).getD (r.line_number - 1) "") = true := by
  obtain ⟨t, ht, hr⟩ := (mem_search_file_iff env f terms cs ww rx r).mp h
  obtain ⟨pat, hc, i, hi, hpat, hrec⟩ := mem_scanTerm hr
  subst hrec
  exact ⟨rfl, ht, Nat.succ_le_succ (Nat.zero_le i), hi, pat, hc, by simpa using hpat⟩

/-- Closed instantiation of `C10_record_soundness` at a concrete world and
record. -/
theorem C10_record_soundness_witness :
    let r : MatchRecord :=
      { file := "f.docx", line_number := 2, term := "x", context := "a  \nx\n  b" }
    r.file = "f.docx" ∧ r.term ∈ ["x"] ∧ 1 ≤ r.line_number ∧
      r.line_number ≤ (pySplitlines (extract_text worldSpaced "f.docx")).length ∧
      ∃ pat, compilePattern worldSpaced r.term false false false = some pat ∧
        pat ((pySplitlines (extract_text worldSpaced "f.docx")).getD
          (r.line_number - 1) "") = true :=
  C10_record_soundness worldSpaced "f.docx" ["x"] false false false
    { file := "f.docx", line_number := 2, term := "x", context := "a  \nx\n  b" }
    (by decide)

/-- C1 counterexample: the source joins the raw context lines and strips
only the joined string, so a context line other than the outermost ends
keeps its surrounding whitespace.  On a file whose text is
`"  a  \nx\n  b  "` the single match (term `x`, middle line) has context
`"a  \nx\n  b"`, while the claimed per-line stripping would give
`"a\nx\nb"`. -/
theorem C1_counterexample :
    (search_file worldSpaced "f.docx" ["x"] false false false).map
        (fun r => r.context) = ["a  \nx\n  b"] ∧
    claimedContextC1 (pySplitlines (extract_text worldSpaced "f.docx")) 1 =
      "a\nx\nb" ∧
    ("a  \nx\n  b" : String) ≠ "a\nx\nb" := by
  refine ⟨by decide, by decide, by decide⟩

/-- C1 (amended): every record `search_file` emits for a match on 0-based
line `i` has as context the raw lines of the clipped range
`[max(0, i-1), min(lineCount, i+2))` joined with newlines, with the joined
string (not each inner line) stripped of surrounding whitespace. -/
theorem C1_context_range (env : ExternalWorld) (f : String)
    (terms : List String) (cs ww rx : Bool) (r : MatchRecord)
    (h : r ∈ search_file env f terms cs ww rx) :
    ∃ i, r.line_number = i + 1 ∧
      i < (pySplitlines (extract_text env f)).length ∧
      r.context = pyStrip (String.intercalate "\n"
        (((pySplitlines (extract_text env f)).drop (i - 1)).take
          (min (pySplitlines (extract_text env f)).length (i + 2) - (i - 1)))) := by
  obtain ⟨t, _, hr⟩ := (mem_search_file_iff env f terms cs ww rx r).mp h
  obtain ⟨pat, _, i, hi, _, hrec⟩ := mem_scanTerm hr
  subst hrec
  exact ⟨i, rfl, hi, rfl⟩

/-- Closed instantiation of `C1_context_range` at a concrete world and
record. -/
theorem C1_context_range_witness :
    ∃ i,
      ({ file := "f.docx", line_number := 2, term := "x",
         context := "a  \nx\n  b" } : MatchRecord).line_number = i + 1 ∧
      i < (pySplitlines (extract_text worldSpaced "f.docx")).length ∧
      ({ file := "f.docx", line_number := 2, term := "x",
         context := "a  \nx\n  b" } : MatchRecord).context =
        pyStrip (String.intercalate "\n"
          (((pySplitlines (extract_text worldSpaced "f.docx")).drop (i - 1)).take
            (min (pySplitlines (extract_text worldSpaced "f.docx")).length (i + 2) -
              (i - 1)))) :=
  C1_context_range worldSpaced "f.docx" ["x"] false false false
    { file := "f.docx", line_number := 2, term := "x", context := "a  \nx\n  b" }
    (by decide)

/-- The lexicographic comparison is irreflexive. -/
theorem strLtList_irrefl : ∀ l : List Char, strLtList l l = false
  | [] => rfl
  | c :: cs => by
    simp only [strLtList, Nat.lt_irrefl, if_false]
    exact strLtList_irrefl cs

/-- The lexicographic comparison is asymmetric. -/
theorem strLtList_asymm : ∀ a b : List Char,
    strLtList a b = true → strLtList b a = false
  | [], [] => by simp [strLtList]
  | [], _ :: _ => fun _ => rfl
  | _ :: _, [] => fun h => by simp [strLtList] at h
  | c :: cs, d :: ds => fun h => by
    simp only [strLtList] at h ⊢
    by_cases hcd : c.toNat < d.toNat
    · rw [if_neg (by omega), if_pos hcd]
    · by_cases hdc : d.toNat < c.toNat
      · rw [if_neg hcd, if_pos hdc] at h
        simp at h
      · rw [if_neg hcd, if_neg hdc] at h
        rw [if_neg hdc, if_neg hcd]
        exact strLtList_asymm cs ds h

/-- The lexicographic comparison is transitive. -/
theorem strLtList_trans : ∀ a b c : List Char,
    strLtList a b = true → strLtList b c = true → strLtList a c = true
  | [], [], _ => fun h1 _ => by simp [strLtList] at h1
  | [], _ :: _, [] => fun _ h2 => by simp [strLtList] at h2
  | [], _ :: _, _ :: _ => fun _ _ => rfl
  | _ :: _, [], _ => fun h1 _ => by simp [strLtList] at h1
  | _ :: _, _ :: _, [] => fun _ h2 => by simp [strLtList] at h2
  | ca :: as_, cb :: bs, cc :: cs_ => fun h1 h2 => by
    simp only [strLtList] at h1 h2 ⊢
    by_cases hab : ca.toNat < cb.toNat
    · by_cases hbc : cb.toNat < cc.toNat
      · rw [if_pos (by omega)]
      · by_cases hcb : cc.toNat < cb.toNat
        · rw [if_neg hbc, if_pos hcb] at h2
          simp at h2
        · rw [if_pos (by omega)]
    · by_cases hba : cb.toNat < ca.toNat
      · rw [if_neg hab, if_pos hba] at h1
        simp at h1
      · rw [if_neg hab, if_neg hba] at h1
        by_cases hbc : cb.toNat < cc.toNat
        · rw [if_pos (by omega)]
        · by_cases hcb : cc.toNat < cb.toNat
          · rw [if_neg hbc, if_pos hcb] at h2
            simp at h2
          · rw [if_neg hbc, if_neg hcb] at h2
            rw [if_neg (by omega), if_neg (by omega)]
            exact strLtList_trans as_ bs cs_ h1 h2

/-- The lexicographic comparison is trichotomous. -/
theorem strLtList_trichotomy : ∀ a b : List Char,
    strLtList a b = true ∨ a = b ∨ strLtList b a = true
  | [], [] => Or.inr (Or.inl rfl)
  | [], _ :: _ => Or.inl rfl
  | _ :: _, [] => Or.inr (Or.inr rfl)
  | c :: cs, d :: ds => by
    rcases Nat.lt_trichotomy c.toNat d.toNat with h | h | h
    · left
      simp only [strLtList]
      rw [if_pos h]
    · have hcd : c = d := Char.ext (UInt32.ext h)
      subst hcd
      rcases strLtList_trichotomy cs ds with h2 | h2 | h2
      · left
        simp only [strLtList, Nat.lt_irrefl, if_false]
        exact h2
      · right; left
        rw [h2]
      · right; right
        simp only [strLtList, Nat.lt_irrefl, if_false]
        exact h2
    · right; right
      simp only [strLtList]
      rw [if_pos h]

/-- String-level trichotomy of the Python comparison. -/
theorem pyStrLt_trichotomy (a b : String) :
    pyStrLt a b = true ∨ a = b ∨ pyStrLt b a = true := by
  rcases strLtList_trichotomy a.data b.data with h | h | h
  · exact Or.inl h
  · refine Or.inr (Or.inl ?_)
    cases a
    cases b
    simp only [String.data] at h
    rw [h]
  · exact Or.inr (Or.inr h)

/-- Unfolding of the sort key comparison. -/
theorem recordLE_iff (a b : MatchRecord) :
    recordLE a b = true ↔
      pyStrLt a.file b.file = true ∨
        (a.file = b.file ∧ a.line_number ≤ b.line_number) := by
  simp [recordLE, Bool.or_eq_true, Bool.and_eq_true, decide_eq_true_eq, beq_iff_eq]

/-- The sort key comparison is reflexive. -/
theorem recordLE_refl (a : MatchRecord) : recordLE a a = true :=
  (recordLE_iff a a).mpr (Or.inr ⟨rfl, Nat.le_refl _⟩)

/-- The sort key comparison is total. -/
theorem recordLE_total (a b : MatchRecord) : (recordLE a b || recordLE b a) = true := by
  rw [Bool.or_eq_true]
  rcases pyStrLt_trichotomy a.file b.file with h | h | h
  · exact Or.inl ((recordLE_iff a b).mpr (Or.inl h))
  · rcases Nat.le_total a.line_number b.line_number with h2 | h2
    · exact Or.inl ((recordLE_iff a b).mpr (Or.inr ⟨h, h2⟩))
    · exact Or.inr ((recordLE_iff b a).mpr (Or.inr ⟨h.symm, h2⟩))
  · exact Or.inr ((recordLE_iff b a).mpr (Or.inl h))

/-- The sort key comparison is transitive. -/
theorem recordLE_trans (a b c : MatchRecord) :
    recordLE a b = true → recordLE b c = true → recordLE a c = true := by
  rw [recordLE_iff, recordLE_iff, recordLE_iff]
  rintro (h1 | ⟨e1, l1⟩) (h2 | ⟨e2, l2⟩)
  · exact Or.inl (strLtList_trans _ _ _ h1 h2)
  · exact Or.inl (by rw [← e2]; exact h1)
  · exact Or.inl (by rw [e1]; exact h2)
  · exact Or.inr ⟨e1.trans e2, Nat.le_trans l1 l2⟩

/-- Key equivalence is exactly equality of file and line number. -/
theorem recordEquiv_iff (a b : MatchRecord) :
    recordEquiv a b = true ↔ a.file = b.file ∧ a.line_number = b.line_number := by
  unfold recordEquiv
  rw [Bool.and_eq_true, recordLE_iff, recordLE_iff]
  constructor
  · rintro ⟨h1 | ⟨e1, l1⟩, h2 | ⟨e2, l2⟩⟩
    · exact absurd h2 (by rw [pyStrLt, strLtList_asymm _ _ h1]; simp)
    · exact absurd h1 (by rw [e2, pyStrLt, strLtList_irrefl]; simp)
    · exact absurd h2 (by rw [e1, pyStrLt, strLtList_irrefl]; simp)
    · exact ⟨e1, Nat.le_antisymm l1 l2⟩
  · rintro ⟨e, l⟩
    exact ⟨Or.inr ⟨e, Nat.le_of_eq l⟩, Or.inr ⟨e.symm, Nat.le_of_eq l.symm⟩⟩

/-- Key equivalence is reflexive. -/
theorem recordEquiv_refl (a : MatchRecord) : recordEquiv a a = true :=
  (recordEquiv_iff a a).mpr ⟨rfl, rfl⟩

/-- The stable sort output is sorted under the key comparison. -/
theorem sortResults_sorted (l : List MatchRecord) :
    (sortResults l).Pairwise (fun a b => recordLE a b = true) :=
  List.sorted_mergeSort recordLE_trans recordLE_total l

/-- Stability of the sort, in filter form: the subsequence of records key
equivalent to a given record is unchanged by sorting. -/
theorem filter_sortResults (l : List MatchRecord) (x : MatchRecord) :
    (sortResults l).filter (recordEquiv x) = l.filter (recordEquiv x) := by
  have hsub : (l.filter (recordEquiv x)).Sublist l := List.filter_sublist l
  have hpw : (l.filter (recordEquiv x)).Pairwise (fun a b => recordLE a b = true) := by
    apply List.pairwise_of_forall_mem_list
    intro a ha b hb
    have hax := List.of_mem_filter ha
    have hbx := List.of_mem_filter hb
    simp only [recordEquiv, Bool.and_eq_true] at hax hbx
    exact recordLE_trans a x b hax.2 hbx.1
  have h1 : (l.filter (recordEquiv x)).Sublist (sortResults l) :=
    List.sublist_mergeSort recordLE_trans recordLE_total hpw hsub
  have h2 : ((sortResults l).filter (recordEquiv x)).Perm (l.filter (recordEquiv x)) :=
    List.Perm.filter _ (List.mergeSort_perm l recordLE)
  have h3 : (l.filter (recordEquiv x)).Sublist
      ((sortResults l).filter (recordEquiv x)) := by
    have h4 := List.Sublist.filter (recordEquiv x) h1
    rwa [List.filter_eq_self.mpr (fun a ha => List.of_mem_filter ha)] at h4
  exact (h3.eq_of_length h2.length_eq.symm).symm

/-- A list sorted under the key comparison is determined by its key
equivalence class subsequences. -/
theorem sorted_eq_of_class_filters :
    ∀ s1 s2 : List MatchRecord,
      s1.Pairwise (fun a b => recordLE a b = true) →
      s2.Pairwise (fun a b => recordLE a b = true) →
      (∀ x, s1.filter (recordEquiv x) = s2.filter (recordEquiv x)) → s1 = s2 := by
  intro s1
  induction s1 with
  | nil =>
    intro s2 _ _ hf
    cases s2 with
    | nil => rfl
    | cons b t2 =>
      exfalso
      have hb : b ∈ List.filter (recordEquiv b) (b :: t2) :=
        List.mem_filter.mpr ⟨List.mem_cons_self b t2, recordEquiv_refl b⟩
      rw [← hf b] at hb
      simp at hb
  | cons a t1 ih =>
    intro s2 h1 h2 hf
    cases s2 with
    | nil =>
      exfalso
      have ha : a ∈ List.filter (recordEquiv a) (a :: t1) :=
        List.mem_filter.mpr ⟨List.mem_cons_self a t1, recordEquiv_refl a⟩
      rw [hf a] at ha
      simp at ha
    | cons b t2 =>
      have hab : a = b := by
        by_contra hne
        have ha2 : a ∈ b :: t2 := by
          have hmem : a ∈ List.filter (recordEquiv a) (a :: t1) :=
            List.mem_filter.mpr ⟨List.mem_cons_self a t1, recordEquiv_refl a⟩
          rw [hf a] at hmem
          exact List.mem_of_mem_filter hmem
        have hb1 : b ∈ a :: t1 := by
          have hmem : b ∈ List.filter (recordEquiv b) (b :: t2) :=
            List.mem_filter.mpr ⟨List.mem_cons_self b t2, recordEquiv_refl b⟩
          rw [← hf b] at hmem
          exact List.mem_of_mem_filter hmem
        have hle_ab : recordLE a b = true := by
          rcases List.mem_cons.mp hb1 with he | hm
          · exact absurd he.symm hne
          · exact (List.pairwise_cons.mp h1).1 b hm
        have hle_ba : recordLE b a = true := by
          rcases List.mem_cons.mp ha2 with he | hm
          · exact absurd he hne
          · exact (List.pairwise_cons.mp h2).1 a hm
        have heq : recordEquiv a b = true := by
          simp [recordEquiv, hle_ab, hle_ba]
        have hfa := hf a
        rw [List.filter_cons, List.filter_cons, if_pos (recordEquiv_refl a),
          if_pos heq] at hfa
        exact hne (List.cons_eq_cons.mp hfa).1
      subst hab
      congr 1
      apply ih t2 (List.pairwise_cons.mp h1).2 (List.pairwise_cons.mp h2).2
      intro x
      have hfx := hf x
      rw [List.filter_cons, List.filter_cons] at hfx
      by_cases hx : recordEquiv x a = true
      · rw [if_pos hx, if_pos hx] at hfx
        exact (List.cons_eq_cons.mp hfx).2
      · rw [if_neg hx, if_neg hx] at hfx
        exact hfx

/-- Every record of a per-file search carries that file's path. -/
theorem mem_search_file_file {env : ExternalWorld} {f : String}
    {terms : List String} {cs ww rx : Bool} {r : MatchRecord}
    (h : r ∈ search_file env f terms cs ww rx) : r.file = f := by
  obtain ⟨t, _, hr⟩ := (mem_search_file_iff env f terms cs ww rx r).mp h
  obtain ⟨pat, _, i, _, _, hrec⟩ := mem_scanTerm hr
  subst hrec
  rfl

/-- A per-file record list contains no record key equivalent to a record of
a different file. -/
theorem filter_equiv_search_file_ne (env : ExternalWorld) (terms : List String)
    (cs ww rx : Bool) (x : MatchRecord) (f : String) (hne : f ≠ x.file) :
    (search_file env f terms cs ww rx).filter (recordEquiv x) = [] := by
  rw [List.filter_eq_nil_iff]
  intro r hr hp
  have hfile : r.file = f := mem_search_file_file hr
  have hxr : x.file = r.file := ((recordEquiv_iff x r).mp hp).1
  exact hne (hfile ▸ hxr).symm

/-- A bind whose function vanishes away from one point is determined by
that point's multiplicity. -/
theorem flatMap_single_support {α β : Type} [DecidableEq α] (f0 : α)
    (h : α → List β) (hz : ∀ a, a ≠ f0 → h a = []) :
    ∀ l : List α, l.flatMap h = (List.replicate (l.count f0) (h f0)).flatten := by
  intro l
  induction l with
  | nil => simp
  | cons a l ih =>
    by_cases ha : a = f0
    · subst ha
      rw [List.flatMap_cons, ih, List.count_cons_self, List.replicate_succ,
        List.flatten_cons]
    · rw [List.flatMap_cons, hz a ha, ih, List.count_cons_of_ne (Ne.symm ha),
        List.nil_append]

/-- Permuting the list leaves such a bind unchanged. -/
theorem flatMap_perm_single_support {α β : Type} [DecidableEq α]
    {l1 l2 : List α} (hp : l1.Perm l2) (f0 : α) (h : α → List β)
    (hz : ∀ a, a ≠ f0 → h a = []) : l1.flatMap h = l2.flatMap h := by
  rw [flatMap_single_support f0 h hz l1, flatMap_single_support f0 h hz l2,
    hp.count_eq f0]

/-- C3: the aggregated sorted output does not depend on the order in which
the per-file record lists are collected: any two completion orders that are
permutations of one another (in particular, any schedule arising from any
job count) give the same final list. -/
theorem C3_schedule_independence (env : ExternalWorld) (terms : List String)
    (cs ww rx : Bool) (order1 order2 : List String)
    (hperm : order1.Perm order2) :
    runSearch env order1 terms cs ww rx = runSearch env order2 terms cs ww rx := by
  unfold runSearch
  apply sorted_eq_of_class_filters _ _ (sortResults_sorted _) (sortResults_sorted _)
  intro x
  rw [filter_sortResults, filter_sortResults, List.filter_flatMap,
    List.filter_flatMap]
  exact flatMap_perm_single_support hperm x.file _
    (fun f hf => filter_equiv_search_file_ne env terms cs ww rx x f hf)

/-- Closed instantiation of `C3_schedule_independence`: two completion
orders of the same two files give identical output. -/
theorem C3_schedule_independence_witness :
    runSearch worldSpaced ["b.docx", "a.docx"] ["x"] false false false =
      runSearch worldSpaced ["a.docx", "b.docx"] ["x"] false false false :=
  C3_schedule_independence worldSpaced ["x"] false false false
    ["b.docx", "a.docx"] ["a.docx", "b.docx"] (by decide)

/-- Indices in an enumerated list are strictly increasing. -/
theorem enum_pairwise_fst {α : Type} (l : List α) :
    l.enum.Pairwise (fun p q => p.1 < q.1) := by
  rw [List.pairwise_iff_getElem]
  intro i j hi hj hij
  rw [List.getElem_enum, List.getElem_enum]
  simpa using hij

/-- Within one term's scan, records appear in strictly increasing line
order. -/
theorem scanTerm_pairwise_line (env : ExternalWorld) (f : String)
    (lines : List String) (cs ww rx : Bool) (t : String) :
    (scanTerm env f lines cs ww rx t).Pairwise
      (fun a b => a.line_number < b.line_number) := by
  unfold scanTerm
  cases compilePattern env t cs ww rx with
  | none => exact List.Pairwise.nil
  | some pat =>
    rw [List.pairwise_filterMap]
    apply List.Pairwise.imp ?_ (enum_pairwise_fst lines)
    intro p q hpq r1 h1 r2 h2
    by_cases hp : pat p.2 = true
    · by_cases hq : pat q.2 = true
      · rw [if_pos hp] at h1
        rw [if_pos hq] at h2
        rw [Option.mem_some_iff] at h1 h2
        subst h1
        subst h2
        exact Nat.succ_lt_succ hpq
      · rw [if_neg hq] at h2
        exact absurd h2 (Option.not_mem_none r2)
    · rw [if_neg hp] at h1
      exact absurd h1 (Option.not_mem_none r1)

/-- A record of a term's scan carries that term. -/
theorem mem_scanTerm_term {env : ExternalWorld} {f : String}
    {lines : List String} {cs ww rx : Bool} {t : String} {r : MatchRecord}
    (h : r ∈ scanTerm env f lines cs ww rx t) : r.term = t := by
  obtain ⟨pat, _, i, _, _, hrec⟩ := mem_scanTerm h
  subst hrec
  rfl

/-- In a duplicate-free list the first-occurrence indices respect list
order. -/
theorem nodup_pairwise_indexOf (l : List String) (h : l.Nodup) :
    l.Pairwise (fun s t => l.indexOf s < l.indexOf t) := by
  induction l with
  | nil => exact List.Pairwise.nil
  | cons a l ih =>
    rw [List.nodup_cons] at h
    rw [List.pairwise_cons]
    constructor
    · intro b hb
      rw [List.indexOf_cons_self, List.indexOf_cons_ne _ (by
        intro he
        exact h.1 (he ▸ hb))]
      exact Nat.succ_pos _
    · apply List.Pairwise.imp_of_mem ?_ (ih h.2)
      intro s t hs ht hlt
      rw [List.indexOf_cons_ne _ (by intro he; exact h.1 (he ▸ hs)),
        List.indexOf_cons_ne _ (by intro he; exact h.1 (he ▸ ht))]
      exact Nat.succ_lt_succ hlt

/-- With a duplicate-free term list, a per-file record list is ordered:
blocks in term-submission order, each block in increasing line order. -/
theorem search_file_pairwise (env : ExternalWorld) (f : String)
    (terms : List String) (cs ww rx : Bool) (hterms : terms.Nodup) :
    (search_file env f terms cs ww rx).Pairwise
      (fun a b => terms.indexOf a.term < terms.indexOf b.term ∨
        (a.term = b.term ∧ a.line_number < b.line_number)) := by
  simp only [search_file]
  split
  · exact List.Pairwise.nil
  · rw [List.flatMap_def, List.pairwise_flatten]
    constructor
    · intro l hl
      rw [List.mem_map] at hl
      obtain ⟨t, ht, rfl⟩ := hl
      apply List.Pairwise.imp_of_mem ?_ (scanTerm_pairwise_line env f _ cs ww rx t)
      intro a b ha hb hab
      exact Or.inr ⟨(mem_scanTerm_term ha).trans (mem_scanTerm_term hb).symm, hab⟩
    · rw [List.pairwise_map]
      apply List.Pairwise.imp_of_mem ?_ (nodup_pairwise_indexOf terms hterms)
      intro t1 t2 ht1 ht2 hlt x hx y hy
      rw [mem_scanTerm_term hx, mem_scanTerm_term hy]
      exact Or.inl hlt

/-- A key-sorted list whose key equivalence classes are ordered by term
index satisfies the claimed total order. -/
theorem pairwise_c2_of (terms : List String) :
    ∀ o : List MatchRecord,
      o.Pairwise (fun a b => recordLE a b = true) →
      (∀ x ∈ o, (o.filter (recordEquiv x)).Pairwise
        (fun a b => terms.indexOf a.term ≤ terms.indexOf b.term)) →
      o.Pairwise (c2Order terms) := by
  intro o
  induction o with
  | nil =>
    intro _ _
    exact List.Pairwise.nil
  | cons a t ih =>
    intro hs hc
    rw [List.pairwise_cons]
    constructor
    · intro b hb
      have hle : recordLE a b = true := (List.pairwise_cons.mp hs).1 b hb
      by_cases heq : recordEquiv a b = true
      · have hef := (recordEquiv_iff a b).mp heq
        have hfa := hc a (List.mem_cons_self a t)
        rw [List.filter_cons, if_pos (recordEquiv_refl a)] at hfa
        have hbf : b ∈ t.filter (recordEquiv a) := List.mem_filter.mpr ⟨hb, heq⟩
        have hidx := (List.pairwise_cons.mp hfa).1 b hbf
        exact Or.inr ⟨hef.1, Or.inr ⟨hef.2, hidx⟩⟩
      · rw [recordLE_iff] at hle
        rcases hle with h | ⟨e, lle⟩
        · exact Or.inl h
        · have hne : a.line_number ≠ b.line_number := fun hl =>
            heq ((recordEquiv_iff a b).mpr ⟨e, hl⟩)
          exact Or.inr ⟨e, Or.inl (Nat.lt_of_le_of_ne lle hne)⟩
    · apply ih (List.pairwise_cons.mp hs).2
      intro x hx
      have hfx := hc x (List.mem_cons_of_mem a hx)
      rw [List.filter_cons] at hfx
      by_cases hxa : recordEquiv x a = true
      · rw [if_pos hxa] at hfx
        exact (List.pairwise_cons.mp hfx).2
      · rw [if_neg hxa] at hfx
        exact hfx

/-- C2: with duplicate-free file and term lists, the aggregated output is
totally ordered: file paths lexicographically, line numbers ascending
within a file, and full key ties ordered by the terms' positions in the
submitted term list. -/
theorem C2_output_total_order (env : ExternalWorld)
    (files arrival terms : List String) (cs ww rx : Bool)
    (hfiles : files.Nodup) (hterms : terms.Nodup) (harr : arrival.Perm files) :
    (runSearch env arrival terms cs ww rx).Pairwise (c2Order terms) := by
  unfold runSearch
  apply pairwise_c2_of
  · exact sortResults_sorted _
  · intro x hx
    rw [filter_sortResults, List.filter_flatMap]
    have harrnodup : arrival.Nodup := harr.nodup_iff.mpr hfiles
    rw [flatMap_single_support x.file _
      (fun f hf => filter_equiv_search_file_ne env terms cs ww rx x f hf) arrival]
    have hcount : arrival.count x.file ≤ 1 :=
      List.nodup_iff_count_le_one.mp harrnodup x.file
    rcases Nat.le_one_iff_eq_zero_or_eq_one.mp hcount with h0 | h1
    · rw [h0]
      exact List.Pairwise.nil
    · rw [h1]
      rw [List.replicate_succ, List.replicate_zero, List.flatten_cons,
        List.flatten_nil, List.append_nil]
      apply List.Pairwise.filter
      apply List.Pairwise.imp ?_
        (search_file_pairwise env x.file terms cs ww rx hterms)
      intro a b hab
      rcases hab with h | ⟨he, _⟩
      · exact Nat.le_of_lt h
      · rw [he]

/-- Closed instantiation of `C2_output_total_order` at a concrete world,
file list and term list. -/
theorem C2_output_total_order_witness :
    (runSearch worldSpaced ["a.docx"] ["x"] false false false).Pairwise
      (c2Order ["x"]) :=
  C2_output_total_order worldSpaced ["a.docx"] ["a.docx"] ["x"] false false false
    (by decide) (by decide) (List.Perm.refl _)

/-- Counting the records carrying one identifying triple. -/
theorem countP_le_one_of_pairwise_ne (T : String × String × Nat) :
    ∀ l : List MatchRecord,
      l.Pairwise (fun a b => tripleOf a ≠ tripleOf b) →
      l.countP (fun r => tripleOf r == T) ≤ 1 := by
  intro l
  induction l with
  | nil => intro _; simp
  | cons a l ih =>
    intro h
    rw [List.pairwise_cons] at h
    rw [List.countP_cons]
    by_cases ha : (tripleOf a == T) = true
    · have h0 : l.countP (fun r => tripleOf r == T) = 0 := by
        rw [List.countP_eq_zero]
        intro b hb hbT
        rw [beq_iff_eq] at ha hbT
        exact h.1 b hb (ha.trans hbT.symm)
      rw [h0, ha]
      simp
    · rw [if_neg ha, Nat.add_zero]
      exact ih h.2

unseal List.merge List.mergeSort in
/-- C8 counterexample: the claim fails when the submitted term list repeats
a term — submitting `x` twice yields two records with the identical triple
(file, term, line number): the triple (f.docx, x, 2) occurs twice in the
output. -/
theorem C8_counterexample :
    (runSearch worldSpaced ["f.docx"] ["x", "x"] false false false).countP
      (fun r => tripleOf r == ("f.docx", "x", 2)) = 2 := by decide

/-- C8 (amended): with duplicate-free file and term lists, each
(file, term, line_number) triple appears at most once in the aggregated
output, and a term's pattern matching a line produces exactly one record
for that (line, term) pair — regardless of how many substrings of the line
match. -/
theorem C8_triple_unique (env : ExternalWorld)
    (files arrival terms : List String) (cs ww rx : Bool)
    (hfiles : files.Nodup) (hterms : terms.Nodup) (harr : arrival.Perm files) :
    ((runSearch env arrival terms cs ww rx).map tripleOf).Nodup ∧
    (∀ f ∈ arrival, ∀ t ∈ terms, ∀ pat,
      compilePattern env t cs ww rx = some pat →
      ∀ i, i < (pySplitlines (extract_text env f)).length →
        pat ((pySplitlines (extract_text env f)).getD i "") = true →
        (runSearch env arrival terms cs ww rx).countP
          (fun r => tripleOf r == (f, t, i + 1)) = 1) := by
  have harrnodup : arrival.Nodup := harr.nodup_iff.mpr hfiles
  have hinput : (arrival.flatMap fun f =>
      search_file env f terms cs ww rx).Pairwise
      (fun a b => tripleOf a ≠ tripleOf b) := by
    rw [List.flatMap_def, List.pairwise_flatten]
    constructor
    · intro l hl
      rw [List.mem_map] at hl
      obtain ⟨f, hf, rfl⟩ := hl
      apply List.Pairwise.imp ?_ (search_file_pairwise env f terms cs ww rx hterms)
      intro a b hab hT
      rw [tripleOf, tripleOf, Prod.mk.injEq, Prod.mk.injEq] at hT
      rcases hab with h | ⟨_, hl2⟩
      · exact absurd (hT.2.1 ▸ h) (lt_irrefl _)
      · exact absurd (hT.2.2 ▸ hl2) (lt_irrefl _)
    · rw [List.pairwise_map]
      apply List.Pairwise.imp_of_mem ?_ harrnodup
      intro f1 f2 h1 h2 hne x hx y hy hT
      rw [tripleOf, tripleOf, Prod.mk.injEq] at hT
      have hx1 : x.file = f1 := mem_search_file_file hx
      have hy1 : y.file = f2 := mem_search_file_file hy
      exact hne (hx1 ▸ hy1 ▸ hT.1)
  have hmapnodup : ((arrival.flatMap fun f =>
      search_file env f terms cs ww rx).map tripleOf).Nodup :=
    List.pairwise_map.mpr hinput
  have hperm : ((runSearch env arrival terms cs ww rx).map tripleOf).Perm
      ((arrival.flatMap fun f => search_file env f terms cs ww rx).map tripleOf) :=
    List.Perm.map tripleOf (List.mergeSort_perm _ recordLE)
  refine ⟨hperm.nodup_iff.mpr hmapnodup, ?_⟩
  intro f hf t ht pat hc i hi hpat
  have hr0 := (mem_search_file_iff env f terms cs ww rx _).mpr
    ⟨t, ht, scanTerm_mem hc hi hpat⟩
  have hcperm : (runSearch env arrival terms cs ww rx).countP
      (fun r => tripleOf r == (f, t, i + 1)) =
      (arrival.flatMap fun f => search_file env f terms cs ww rx).countP
        (fun r => tripleOf r == (f, t, i + 1)) :=
    List.Perm.countP_eq _ (List.mergeSort_perm _ recordLE)
  rw [hcperm]
  have hle := countP_le_one_of_pairwise_ne (f, t, i + 1) _ hinput
  have hge : 0 < (arrival.flatMap fun f =>
      search_file env f terms cs ww rx).countP
      (fun r => tripleOf r == (f, t, i + 1)) := by
    rw [List.countP_pos_iff]
    exact ⟨_, List.mem_flatMap.mpr ⟨f, hf, hr0⟩, by rw [beq_iff_eq]; rfl⟩
  omega

/-- Closed instantiation of `C8_triple_unique` at a concrete world: the
output triples are duplicate-free and the matching pair (line 2, term `x`)
contributes exactly one record. -/
theorem C8_triple_unique_witness :
    ((runSearch worldSpaced ["a.docx"] ["x"] false false false).map
        tripleOf).Nodup ∧
    (runSearch worldSpaced ["a.docx"] ["x"] false false false).countP
      (fun r => tripleOf r == ("a.docx", "x", 2)) = 1 := by
  have h := C8_triple_unique worldSpaced ["a.docx"] ["a.docx"] ["x"]
    false false false (by decide) (by decide) (List.Perm.refl _)
  exact ⟨h.1, h.2 "a.docx" (by decide) "x" (by decide) (substrSearch false "x")
    rfl 1 (by decide) (by decide)⟩

unseal List.merge List.mergeSort in
/-- C2 counterexample: with a term list that repeats a term, the claimed
tie order (positions of the records' terms in the submitted term list) is
violated: terms `[x, marks, x]` on a one-line file produce records for
`x`, `marks`, `x` in that order, and the pair (`marks` record, second `x`
record) ties on file and line with term positions 1 and 0. -/
theorem C2_counterexample :
    ¬ (runSearch worldRegex ["f.docx"] ["x", "marks", "x"]
        false false false).Pairwise (c2Order ["x", "marks", "x"]) := by
  decide
